import Mathlib

/-!
# Verification of the CESIS E-Ink event server core

Shallow embedding of the event-selection and cache logic of the server
(the repository's current `index.js`; line numbers below refer to it).

Modelling conventions:
* Timestamps are `Int` milliseconds since the epoch, the value of
  `new Date(x).getTime()`.  An event's `startTime` / `endTime` JSON string is
  modelled post-parse as `Option Int` (`none` = field absent or falsy).
* The host's local-time calendar decomposition
  `(getFullYear, getMonth, getDate)` is a parameter
  `dateOf : Int → Int × Int × Int`; the code only ever compares the three
  components for equality.  Likewise `Date.prototype.toISOString` is a
  parameter `isoOf : Int → String` used only to assemble the message string.
* JavaScript truthiness is modelled where it matters: a missing field is
  `none`; an array (even empty) is truthy; the number `0` is falsy
  (`jsTruthyNum`); the empty string is falsy (`truthyStr`).
* Rendering (`generateEventImage`) is an external collaborator and is not part
  of the selection/cache contract; the embedded handler returns the JSON
  fields of the response that the selection logic determines.
-/

namespace EInk

/-- An event record of `json/structured_events.json`.  Fields not consulted by
the selection logic (organizer, subject code, attendees, status, …) are
carried opaquely by the real code and are omitted here. -/
structure Event where
  title : Option String := none
  summary : Option String := none
  startTime : Option Int := none
  endTime : Option Int := none
  location : Option (List String) := none
deriving DecidableEq, Repr

/-- One step of the `for (const event of allEvents)` loop of `POST /data`
(lines 259–287).  The accumulator `next` carries the best next-candidate so
far together with its start in ms (the code recomputes
`new Date(nextEvent.startTime).getTime()`, which is that same number).
Returns `(currentEvent, nextEvent)`; finding a current event `break`s,
keeping the accumulated `next`. -/
def selectGo (dateOf : Int → Int × Int × Int) (room : String) (nowMs : Int) :
    List Event → Option (Event × Int) → Option Event × Option (Event × Int)
  | [], next => (none, next)
  | e :: rest, next =>
    match e.startTime, e.endTime, e.location with
    | some s, some en, some locs =>
      if room ∈ locs then
        if dateOf s = dateOf nowMs then
          if s ≤ nowMs ∧ nowMs ≤ en then
            (some e, next)
          else if nowMs < s then
            match next with
            | none => selectGo dateOf room nowMs rest (some (e, s))
            | some (n, ns) =>
              if s < ns then selectGo dateOf room nowMs rest (some (e, s))
              else selectGo dateOf room nowMs rest (some (n, ns))
          else
            selectGo dateOf room nowMs rest next
        else selectGo dateOf room nowMs rest next
      else selectGo dateOf room nowMs rest next
    | _, _, _ => selectGo dateOf room nowMs rest next

/-- The event selector of `POST /data`: single pass over all events, returning
`(currentEvent, nextEvent)` exactly as the loop of lines 254–287 leaves them. -/
def select (dateOf : Int → Int × Int × Int) (room : String) (nowMs : Int)
    (events : List Event) : Option Event × Option Event :=
  let r := selectGo dateOf room nowMs events none
  (r.1, r.2.map Prod.fst)

/-- The exact condition under which the loop makes an event the current one:
all three fields present, the room is a member of the location list, the
start is on today's calendar date, and `timeNowMs >= start && timeNowMs <= end`. -/
def currentEligible (dateOf : Int → Int × Int × Int) (room : String)
    (nowMs : Int) (e : Event) : Bool :=
  match e.startTime, e.endTime, e.location with
  | some s, some en, some locs =>
    decide (room ∈ locs) && decide (dateOf s = dateOf nowMs) &&
      decide (s ≤ nowMs) && decide (nowMs ≤ en)
  | _, _, _ => false

/-- The exact condition under which the loop treats an event as a
next-candidate, returning its start in ms: fields present, room matches,
same calendar date, and `eventStartMs > timeNowMs`. -/
def candStart (dateOf : Int → Int × Int × Int) (room : String) (nowMs : Int)
    (e : Event) : Option Int :=
  match e.startTime, e.endTime, e.location with
  | some s, some _, some locs =>
    if room ∈ locs ∧ dateOf s = dateOf nowMs ∧ nowMs < s then some s else none
  | _, _, _ => none

/-- An event "matches the room today": fields present, room in the location
list, start on today's date (the filters of lines 260–270, before the
current/next classification). -/
def eventMatches (dateOf : Int → Int × Int × Int) (room : String) (nowMs : Int)
    (e : Event) : Bool :=
  match e.startTime, e.endTime, e.location with
  | some s, some _, some locs =>
    decide (room ∈ locs) && decide (dateOf s = dateOf nowMs)
  | _, _, _ => false

/-- The next-candidate update of lines 282–286, as a fold step:
replace the kept candidate only when the new start is strictly smaller. -/
def stepNext (dateOf : Int → Int × Int × Int) (room : String) (nowMs : Int)
    (acc : Option (Event × Int)) (e : Event) : Option (Event × Int) :=
  match candStart dateOf room nowMs e with
  | none => acc
  | some s =>
    match acc with
    | none => some (e, s)
    | some (n, ns) => if s < ns then some (e, s) else some (n, ns)

/-- JavaScript truthiness of an optional string: `none` and `""` are falsy. -/
def truthyStr : Option String → Option String
  | none => none
  | some s => if s = "" then none else some s

/-- `nextEvent.title || nextEvent.summary || 'No Title'` (line 303). -/
def displayTitle (e : Event) : String :=
  ((truthyStr e.title).or (truthyStr e.summary)).getD "No Title"

/-- The human-friendly message of lines 298–307: `null` when a current event
exists; otherwise either the next-event sentence or the fixed string. -/
def nextEventMessage (isoOf : Int → String) (cur nxt : Option Event) :
    Option String :=
  match cur with
  | some _ => none
  | none =>
    match nxt with
    | some n =>
      some ("Next event \"" ++ displayTitle n ++ "\" starts at "
        ++ isoOf (n.startTime.getD 0))
    | none => some "No upcoming events for this room"

/-- The JSON response of `POST /data`: either a server error
(`res.status(500).json({ error })`) or the success body (the `imageBase64`
field, produced by the external renderer, is outside the embedded core). -/
inductive Response where
  | error (status : Nat) (msg : String)
  | ok (room : String) (event : Option Event) (nextEvent : Option Event)
      (nextEventMessage : Option String)
deriving DecidableEq, Repr

/-- Response assembly of lines 298–317, given the loaded events. -/
def respond (isoOf : Int → String) (dateOf : Int → Int × Int × Int)
    (room : String) (nowMs : Int) (events : List Event) : Response :=
  let r := select dateOf room nowMs events
  Response.ok room r.1 r.2 (nextEventMessage isoOf r.1 r.2)

/-- The on-disk store file `json/structured_events.json` as the cache sees it:
its mtime in ms and its parse result (`none` = `JSON.parse` throws,
i.e. the contents are corrupt). -/
structure StoredFile where
  mtime : Int
  content : Option (List Event)
deriving DecidableEq, Repr

/-- The process-wide cache state: the module-level variables
`eventsCache` and `cacheTimestamp` (lines 20–21). -/
structure CacheState where
  eventsCache : Option (List Event) := none
  cacheTimestamp : Option Int := none
deriving DecidableEq, Repr

/-- JavaScript truthiness of a nullable number: `null` and `0` are falsy. -/
def jsTruthyNum : Option Int → Bool
  | none => false
  | some t => decide (t ≠ 0)

/-- `loadEventsCache` (lines 33–52).  Returns the new cache state together
with the call's outcome: `Except.error ()` models `JSON.parse` throwing
(store corrupt — the assignments to `eventsCache`/`cacheTimestamp` on
lines 46–47 are then never executed); `Except.ok none` models the early
`return null` when the file does not exist (the handler turns that into a
500); `Except.ok (some evs)` is a normal return of the cached array.
`st.cacheTimestamp.getD 0` mirrors JavaScript coercing `null` to `0` in
`fileModTime > cacheTimestamp` (unreachable thanks to short-circuiting). -/
def loadEventsCache (fsys : Option StoredFile) (st : CacheState) :
    CacheState × Except Unit (Option (List Event)) :=
  match fsys with
  | none => ({ eventsCache := none, cacheTimestamp := none }, Except.ok none)
  | some f =>
    if !st.eventsCache.isSome || !jsTruthyNum st.cacheTimestamp
        || decide (f.mtime > st.cacheTimestamp.getD 0) then
      match f.content with
      | none => (st, Except.error ())
      | some evs =>
        ({ eventsCache := some evs, cacheTimestamp := some f.mtime },
          Except.ok (some evs))
    else
      (st, Except.ok st.eventsCache)

/-- The cache invalidation performed by `parseICal` after writing a new store
file (line 226): `cacheTimestamp = null`, the snapshot is left in place. -/
def invalidate (st : CacheState) : CacheState :=
  { st with cacheTimestamp := none }

/-- The `POST /data` handler (lines 232–322): ensure the cache is fresh, run
the selector, assemble the response; a missing store answers
`500 Structured events data not found`, a `JSON.parse` throw is caught by the
surrounding `try`/`catch` and answers `500 Internal server error`. -/
def handleData (isoOf : Int → String) (dateOf : Int → Int × Int × Int)
    (fsys : Option StoredFile) (st : CacheState) (room : String)
    (nowMs : Int) : CacheState × Response :=
  match loadEventsCache fsys st with
  | (st1, Except.error _) => (st1, Response.error 500 "Internal server error")
  | (st1, Except.ok none) =>
    (st1, Response.error 500 "Structured events data not found")
  | (st1, Except.ok (some events)) =>
    (st1, respond isoOf dateOf room nowMs events)

/-- A concrete calendar decomposition used for witnesses: the UTC day number
(two instants get equal triples iff they fall on the same UTC date). -/
def utcDay (ms : Int) : Int × Int × Int := (ms.fdiv 86400000, 0, 0)

/-- A concrete stand-in for `toISOString` used for witnesses. -/
def isoStub (ms : Int) : String := toString ms

/-- Scenario event: room "2.05", 09:00–10:00 on day 0 (in ms). -/
def evA : Event :=
  { title := some "Class A", startTime := some 32400000,
    endTime := some 36000000, location := some ["2.05"] }

/-- Scenario event: room "2.05", 11:00–12:00 on day 0 (in ms). -/
def evB : Event :=
  { title := some "Class B", startTime := some 39600000,
    endTime := some 43200000, location := some ["2.05"] }

/-- A malformed event: `startTime` missing. -/
def evBad : Event :=
  { title := some "Broken", endTime := some 36000000,
    location := some ["2.05"] }

/-- The loop body in one step: an event either matches as current (break,
keeping the accumulated candidate), or the scan continues with the
next-candidate accumulator updated by `stepNext`. -/
theorem selectGo_cons (dateOf : Int → Int × Int × Int) (room : String)
    (nowMs : Int) (e : Event) (rest : List Event)
    (next : Option (Event × Int)) :
    selectGo dateOf room nowMs (e :: rest) next =
      if currentEligible dateOf room nowMs e then (some e, next)
      else selectGo dateOf room nowMs rest
        (stepNext dateOf room nowMs next e) := by
  rcases hs : e.startTime with _ | s <;>
    rcases he : e.endTime with _ | en <;>
      rcases hl : e.location with _ | locs <;>
        simp only [selectGo, currentEligible, candStart, stepNext, hs, he, hl,
          Bool.false_eq_true, if_false]
  by_cases hr : room ∈ locs
  · by_cases hd : dateOf s = dateOf nowMs
    · by_cases hc : s ≤ nowMs ∧ nowMs ≤ en
      · have hnf : ¬ nowMs < s := not_lt.mpr hc.1
        simp [hr, hd, hc, hnf]
      · by_cases hf : nowMs < s
        · cases next with
          | none => simp [hr, hd, hc, hf]
          | some p =>
            cases p with
            | mk n ns => by_cases hlt : s < ns <;> simp [hr, hd, hc, hf, hlt]
        · simp [hr, hd, hc, hf]
    · simp [hr, hd]
  · simp [hr]

/-- Unfolding `currentEligible e = true` into the source conditions. -/
theorem currentEligible_spec (dateOf : Int → Int × Int × Int) (room : String)
    (nowMs : Int) (e : Event)
    (h : currentEligible dateOf room nowMs e = true) :
    ∃ s en locs, e.startTime = some s ∧ e.endTime = some en ∧
      e.location = some locs ∧ room ∈ locs ∧ dateOf s = dateOf nowMs ∧
      s ≤ nowMs ∧ nowMs ≤ en := by
  unfold currentEligible at h
  split at h
  · rename_i s en locs hs he hl
    simp only [Bool.and_eq_true, decide_eq_true_eq] at h
    exact ⟨s, en, locs, hs, he, hl, h.1.1.1, h.1.1.2, h.1.2, h.2⟩
  · simp at h

/-- Unfolding `candStart e = some s` into the source conditions. -/
theorem candStart_spec (dateOf : Int → Int × Int × Int) (room : String)
    (nowMs : Int) (e : Event) (s : Int)
    (h : candStart dateOf room nowMs e = some s) :
    ∃ en locs, e.startTime = some s ∧ e.endTime = some en ∧
      e.location = some locs ∧ room ∈ locs ∧ dateOf s = dateOf nowMs ∧
      nowMs < s := by
  unfold candStart at h
  split at h
  · rename_i s0 en locs hs he hl
    by_cases hcond : room ∈ locs ∧ dateOf s0 = dateOf nowMs ∧ nowMs < s0
    · rw [if_pos hcond] at h
      obtain rfl : s0 = s := by injection h
      exact ⟨en, locs, hs, he, hl, hcond.1, hcond.2.1, hcond.2.2⟩
    · rw [if_neg hcond] at h
      exact absurd h (by simp)
  · simp at h

/-- A next-candidate is never current-eligible (its start is strictly in the
future), and conversely an event that is neither gets skipped. -/
theorem stepNext_none (dateOf : Int → Int × Int × Int) (room : String)
    (nowMs : Int) (e : Event) (acc : Option (Event × Int))
    (h : candStart dateOf room nowMs e = none) :
    stepNext dateOf room nowMs acc e = acc := by
  simp [stepNext, h]

/-- The current component of the scan is the first eligible event, whatever
candidate is already accumulated. -/
theorem selectGo_fst_eq_find (dateOf : Int → Int × Int × Int) (room : String)
    (nowMs : Int) (l : List Event) :
    ∀ next, (selectGo dateOf room nowMs l next).1 =
      l.find? (currentEligible dateOf room nowMs) := by
  induction l with
  | nil => intro next; rfl
  | cons e rest ih =>
    intro next
    rw [selectGo_cons]
    by_cases h : currentEligible dateOf room nowMs e = true
    · rw [if_pos h, List.find?_cons_of_pos _ h]
    · rw [if_neg (by simp [h]), List.find?_cons_of_neg _ (by simp [h]), ih]

/-- When no event of the list is current-eligible, the scan never breaks and
the candidate accumulator is exactly a left fold of `stepNext`. -/
theorem selectGo_no_current (dateOf : Int → Int × Int × Int) (room : String)
    (nowMs : Int) (l : List Event)
    (h : ∀ e ∈ l, currentEligible dateOf room nowMs e = false) :
    ∀ acc, selectGo dateOf room nowMs l acc =
      (none, l.foldl (stepNext dateOf room nowMs) acc) := by
  induction l with
  | nil => intro acc; rfl
  | cons e rest ih =>
    intro acc
    rw [selectGo_cons, if_neg (by simp [h e (by simp)]), List.foldl_cons]
    exact ih (fun x hx => h x (List.mem_cons_of_mem _ hx)) _

/-- Any candidate the scan reports comes either from the initial accumulator
or from a next-candidate of the list itself. -/
theorem selectGo_snd_src (dateOf : Int → Int × Int × Int) (room : String)
    (nowMs : Int) (l : List Event) :
    ∀ acc p, (selectGo dateOf room nowMs l acc).2 = some p →
      acc = some p ∨ (p.1 ∈ l ∧ candStart dateOf room nowMs p.1 = some p.2) := by
  induction l with
  | nil => intro acc p h; exact Or.inl h
  | cons e rest ih =>
    intro acc p h
    rw [selectGo_cons] at h
    by_cases he : currentEligible dateOf room nowMs e = true
    · rw [if_pos he] at h
      exact Or.inl h
    · rw [if_neg (by simp [he])] at h
      rcases ih _ p h with hacc | ⟨hmem, hcand⟩
      · rcases hc : candStart dateOf room nowMs e with _ | s
        · rw [stepNext_none _ _ _ _ _ hc] at hacc
          exact Or.inl hacc
        · cases acc with
          | none =>
            simp only [stepNext, hc, Option.some.injEq] at hacc
            exact Or.inr ⟨by rw [← hacc]; exact List.mem_cons_self e rest,
              by rw [← hacc]; exact hc⟩
          | some q =>
            cases q with
            | mk n ns =>
              simp only [stepNext, hc] at hacc
              by_cases hlt : s < ns
              · rw [if_pos hlt] at hacc
                simp only [Option.some.injEq] at hacc
                exact Or.inr ⟨by rw [← hacc]; exact List.mem_cons_self e rest,
                  by rw [← hacc]; exact hc⟩
              · rw [if_neg hlt] at hacc
                exact Or.inl hacc
      · exact Or.inr ⟨List.mem_cons_of_mem _ hmem, hcand⟩

/-- Folding the candidate update never increases the kept start. -/
theorem foldl_stepNext_mono (dateOf : Int → Int × Int × Int) (room : String)
    (nowMs : Int) (l : List Event) :
    ∀ m ms n ns,
      l.foldl (stepNext dateOf room nowMs) (some (m, ms)) = some (n, ns) →
      ns ≤ ms := by
  induction l with
  | nil =>
    intro m ms n ns h
    simp only [List.foldl_nil, Option.some.injEq, Prod.mk.injEq] at h
    exact le_of_eq h.2.symm
  | cons e rest ih =>
    intro m ms n ns h
    rw [List.foldl_cons] at h
    rcases hc : candStart dateOf room nowMs e with _ | s
    · rw [stepNext_none _ _ _ _ _ hc] at h
      exact ih m ms n ns h
    · simp only [stepNext, hc] at h
      by_cases hlt : s < ms
      · rw [if_pos hlt] at h
        exact le_of_lt (lt_of_le_of_lt (ih e s n ns h) hlt)
      · rw [if_neg hlt] at h
        exact ih m ms n ns h

/-- Updating a kept candidate never drops it. -/
theorem stepNext_keeps_some (dateOf : Int → Int × Int × Int) (room : String)
    (nowMs : Int) (p : Event × Int) (e : Event) :
    ∃ q, stepNext dateOf room nowMs (some p) e = some q := by
  rcases hc : candStart dateOf room nowMs e with _ | s
  · exact ⟨p, stepNext_none _ _ _ _ _ hc⟩
  · cases p with
    | mk n ns =>
      simp only [stepNext, hc]
      by_cases hlt : s < ns
      · exact ⟨(e, s), if_pos hlt⟩
      · exact ⟨(n, ns), if_neg hlt⟩

/-- Folding the candidate update from a kept candidate always keeps some
candidate. -/
theorem foldl_stepNext_isSome (dateOf : Int → Int × Int × Int) (room : String)
    (nowMs : Int) (l : List Event) :
    ∀ p, ∃ q, l.foldl (stepNext dateOf room nowMs) (some p) = some q := by
  induction l with
  | nil => intro p; exact ⟨p, rfl⟩
  | cons e rest ih =>
    intro p
    rw [List.foldl_cons]
    obtain ⟨q, hq⟩ := stepNext_keeps_some dateOf room nowMs p e
    rw [hq]
    exact ih q

/-- If some event of the list is a next-candidate, the fold produces a
candidate. -/
theorem foldl_stepNext_exists (dateOf : Int → Int × Int × Int) (room : String)
    (nowMs : Int) (l : List Event) :
    ∀ acc e s, e ∈ l → candStart dateOf room nowMs e = some s →
      ∃ q, l.foldl (stepNext dateOf room nowMs) acc = some q := by
  induction l with
  | nil => intro _ _ _ hmem; cases hmem
  | cons x rest ih =>
    intro acc e s hmem hc
    rw [List.foldl_cons]
    rcases List.mem_cons.mp hmem with rfl | hmem2
    · cases acc with
      | none =>
        simp only [stepNext, hc]
        exact foldl_stepNext_isSome dateOf room nowMs rest _
      | some p =>
        obtain ⟨q, hq⟩ := stepNext_keeps_some dateOf room nowMs p e
        rw [hq]
        exact foldl_stepNext_isSome dateOf room nowMs rest q
    · exact ih _ e s hmem2 hc

/-- The kept candidate's start is a lower bound for every next-candidate of
the list (the fold keeps a minimal start). -/
theorem foldl_stepNext_min (dateOf : Int → Int × Int × Int) (room : String)
    (nowMs : Int) (l : List Event) :
    ∀ acc n ns, l.foldl (stepNext dateOf room nowMs) acc = some (n, ns) →
      ∀ e ∈ l, ∀ s, candStart dateOf room nowMs e = some s → ns ≤ s := by
  induction l with
  | nil => intro _ _ _ _ e hmem; cases hmem
  | cons x rest ih =>
    intro acc n ns h e hmem s hcs
    rw [List.foldl_cons] at h
    rcases List.mem_cons.mp hmem with rfl | hmem2
    · cases acc with
      | none =>
        simp only [stepNext, hcs] at h
        exact foldl_stepNext_mono dateOf room nowMs rest e s n ns h
      | some p =>
        cases p with
        | mk m ms =>
          simp only [stepNext, hcs] at h
          by_cases hlt : s < ms
          · rw [if_pos hlt] at h
            exact foldl_stepNext_mono dateOf room nowMs rest e s n ns h
          · rw [if_neg hlt] at h
            exact le_trans (foldl_stepNext_mono dateOf room nowMs rest m ms n ns h)
              (not_lt.mp hlt)
    · exact ih _ n ns h e hmem2 s hcs

/-- If the fold, started from a kept candidate, ends on the exact same start
value, the kept candidate was never replaced. -/
theorem foldl_stepNext_keep_eq (dateOf : Int → Int × Int × Int) (room : String)
    (nowMs : Int) (l : List Event) :
    ∀ m ms n, l.foldl (stepNext dateOf room nowMs) (some (m, ms)) = some (n, ms) →
      n = m := by
  induction l with
  | nil =>
    intro m ms n h
    simp only [List.foldl_nil, Option.some.injEq, Prod.mk.injEq] at h
    exact h.1.symm
  | cons x rest ih =>
    intro m ms n h
    rw [List.foldl_cons] at h
    rcases hc : candStart dateOf room nowMs x with _ | s
    · rw [stepNext_none _ _ _ _ _ hc] at h
      exact ih m ms n h
    · simp only [stepNext, hc] at h
      by_cases hlt : s < ms
      · rw [if_pos hlt] at h
        have := foldl_stepNext_mono dateOf room nowMs rest x s n ms h
        omega
      · rw [if_neg hlt] at h
        exact ih m ms n h

/-- If the fold strictly improves on the initial candidate, the winner is the
first event of the list whose candidate start equals the final value. -/
theorem foldl_stepNext_first_of_lt (dateOf : Int → Int × Int × Int)
    (room : String) (nowMs : Int) (l : List Event) :
    ∀ m ms n ns,
      l.foldl (stepNext dateOf room nowMs) (some (m, ms)) = some (n, ns) →
      ns < ms →
      (l.filter (fun e => decide (candStart dateOf room nowMs e = some ns))).head?
        = some n := by
  induction l with
  | nil =>
    intro m ms n ns h hlt
    simp only [List.foldl_nil, Option.some.injEq, Prod.mk.injEq] at h
    omega
  | cons x rest ih =>
    intro m ms n ns h hlt
    rw [List.foldl_cons] at h
    rcases hc : candStart dateOf room nowMs x with _ | s
    · rw [stepNext_none _ _ _ _ _ hc] at h
      rw [List.filter_cons_of_neg (by simp [hc])]
      exact ih m ms n ns h hlt
    · simp only [stepNext, hc] at h
      by_cases hsm : s < ms
      · rw [if_pos hsm] at h
        have hle := foldl_stepNext_mono dateOf room nowMs rest x s n ns h
        rcases eq_or_lt_of_le hle with heq | hlt2
        · have hn : n = x := foldl_stepNext_keep_eq dateOf room nowMs rest x s n
            (by rw [heq] at h; exact h)
          rw [List.filter_cons_of_pos (by simp [hc, heq])]
          rw [List.head?_cons, hn]
        · rw [List.filter_cons_of_neg (by simp [hc]; omega)]
          exact ih x s n ns h hlt2
      · rw [if_neg hsm] at h
        have hle := foldl_stepNext_mono dateOf room nowMs rest m ms n ns h
        rw [List.filter_cons_of_neg (by simp [hc]; omega)]
        exact ih m ms n ns h hlt

/-- Starting with no candidate, the fold's winner is the first event of the
list whose candidate start equals the final (minimal) value: first
encountered wins for exactly equal start times. -/
theorem foldl_stepNext_first (dateOf : Int → Int × Int × Int) (room : String)
    (nowMs : Int) (l : List Event) :
    ∀ n ns, l.foldl (stepNext dateOf room nowMs) none = some (n, ns) →
      (l.filter (fun e => decide (candStart dateOf room nowMs e = some ns))).head?
        = some n := by
  induction l with
  | nil => intro n ns h; cases h
  | cons x rest ih =>
    intro n ns h
    rw [List.foldl_cons] at h
    rcases hc : candStart dateOf room nowMs x with _ | s
    · rw [stepNext_none _ _ _ _ _ hc] at h
      rw [List.filter_cons_of_neg (by simp [hc])]
      exact ih n ns h
    · simp only [stepNext, hc] at h
      have hle := foldl_stepNext_mono dateOf room nowMs rest x s n ns h
      rcases eq_or_lt_of_le hle with heq | hlt2
      · have hn : n = x := foldl_stepNext_keep_eq dateOf room nowMs rest x s n
          (by rw [heq] at h; exact h)
        rw [List.filter_cons_of_pos (by simp [hc, heq])]
        rw [List.head?_cons, hn]
      · rw [List.filter_cons_of_neg (by simp [hc]; omega)]
        exact foldl_stepNext_first_of_lt dateOf room nowMs rest x s n ns h hlt2

/-- When no event of the list is a next-candidate, the fold keeps the initial
accumulator. -/
theorem foldl_stepNext_const (dateOf : Int → Int × Int × Int) (room : String)
    (nowMs : Int) (l : List Event)
    (h : ∀ e ∈ l, candStart dateOf room nowMs e = none) :
    ∀ acc, l.foldl (stepNext dateOf room nowMs) acc = acc := by
  induction l with
  | nil => intro acc; rfl
  | cons x rest ih =>
    intro acc
    rw [List.foldl_cons, stepNext_none _ _ _ _ _ (h x (by simp))]
    exact ih (fun e he => h e (List.mem_cons_of_mem _ he)) acc

/-- C1: for every event of the cached sequence whose `startTime` and
`endTime` are present, whose location list contains the requested room, whose
start falls on the same calendar date as `now`, and with
`startTime ≤ now ≤ endTime` (bounds inclusive), the selector returns a
current event, namely the first such event in iteration order. -/
theorem c1_current_first_match (dateOf : Int → Int × Int × Int)
    (room : String) (nowMs : Int) (events : List Event) (e : Event)
    (s en : Int) (locs : List String) (hmem : e ∈ events)
    (hs : e.startTime = some s) (he : e.endTime = some en)
    (hl : e.location = some locs) (hr : room ∈ locs)
    (hd : dateOf s = dateOf nowMs) (h1 : s ≤ nowMs) (h2 : nowMs ≤ en) :
    ∃ c, (select dateOf room nowMs events).1 = some c ∧
      events.find? (currentEligible dateOf room nowMs) = some c := by
  have helig : currentEligible dateOf room nowMs e = true := by
    simp [currentEligible, hs, he, hl, hr, hd, h1, h2]
  have hsome : (events.find? (currentEligible dateOf room nowMs)).isSome := by
    rw [List.find?_isSome]
    exact ⟨e, hmem, helig⟩
  obtain ⟨c, hc⟩ := Option.isSome_iff_exists.mp hsome
  refine ⟨c, ?_, hc⟩
  show (selectGo dateOf room nowMs events none).1 = some c
  rw [selectGo_fst_eq_find]
  exact hc

/-- C1 witness: Scenario A (room "2.05", event 09:00–10:00, request at
09:30). -/
theorem c1_witness :
    ∃ c, (select utcDay "2.05" 34200000 [evA]).1 = some c ∧
      [evA].find? (currentEligible utcDay "2.05" 34200000) = some c :=
  c1_current_first_match utcDay "2.05" 34200000 [evA] evA 32400000 36000000
    ["2.05"] (by decide) (by decide) (by decide) (by decide) (by decide)
    (by decide) (by decide) (by decide)

/-- C2 counterexample: when a future event of the same room and day precedes
the current event in iteration order, the selector returns the current event
AND a non-null next event — the result pair is not exclusive.  List
`[evB, evA]` (11:00–12:00 listed before 09:00–10:00), request at 09:30:
current is `evA`, yet next is `evB`, not null. -/
theorem c2_counterexample :
    (select utcDay "2.05" 34200000 [evB, evA]).1 = some evA ∧
      (select utcDay "2.05" 34200000 [evB, evA]).2 = some evB ∧
      (select utcDay "2.05" 34200000 [evB, evA]).2 ≠ none := by
  decide

/-- C2 (amended): when a current event is found — the first current-eligible
event in iteration order — the next-candidate search is abandoned from that
point on (the events after it are never examined), but the candidate
accumulated by the next-candidate update over the events BEFORE it in
iteration order is retained and reported in the response; the returned next
event is null precisely in the case that no event before the current one
qualified as a next-candidate (as in Scenario A). -/
theorem c2_amended_retained_prefix_candidate (dateOf : Int → Int × Int × Int)
    (room : String) (nowMs : Int) (l1 l2 : List Event) (e : Event)
    (hnc : ∀ x ∈ l1, currentEligible dateOf room nowMs x = false)
    (helig : currentEligible dateOf room nowMs e = true) :
    (select dateOf room nowMs (l1 ++ e :: l2)).1 = some e ∧
      (select dateOf room nowMs (l1 ++ e :: l2)).2 =
        (l1.foldl (stepNext dateOf room nowMs) none).map Prod.fst ∧
      ((select dateOf room nowMs (l1 ++ e :: l2)).2 = none ↔
        ∀ x ∈ l1, candStart dateOf room nowMs x = none) := by
  have key : ∀ m, (∀ x ∈ m, currentEligible dateOf room nowMs x = false) →
      ∀ acc, selectGo dateOf room nowMs (m ++ e :: l2) acc =
        (some e, m.foldl (stepNext dateOf room nowMs) acc) := by
    intro m
    induction m with
    | nil =>
      intro _ acc
      rw [List.nil_append, selectGo_cons, if_pos helig, List.foldl_nil]
    | cons x rest ih =>
      intro hm acc
      rw [List.cons_append, selectGo_cons,
        if_neg (by simp [hm x (by simp)]), List.foldl_cons]
      exact ih (fun y hy => hm y (List.mem_cons_of_mem _ hy)) _
  have hgo := key l1 hnc none
  have h1 : (select dateOf room nowMs (l1 ++ e :: l2)).1 = some e := by
    show (selectGo dateOf room nowMs (l1 ++ e :: l2) none).1 = some e
    rw [hgo]
  have h2 : (select dateOf room nowMs (l1 ++ e :: l2)).2 =
      (l1.foldl (stepNext dateOf room nowMs) none).map Prod.fst := by
    show ((selectGo dateOf room nowMs (l1 ++ e :: l2) none).2.map Prod.fst) = _
    rw [hgo]
  refine ⟨h1, h2, ?_⟩
  rw [h2]
  constructor
  · intro hnone x hx
    rcases hc : candStart dateOf room nowMs x with _ | s
    · rfl
    · obtain ⟨q, hq⟩ :=
        foldl_stepNext_exists dateOf room nowMs l1 none x s hx hc
      rw [hq] at hnone
      cases hnone
  · intro hall
    rw [foldl_stepNext_const dateOf room nowMs l1 hall none]
    rfl

/-- C2 (amended) witness: the counterexample list `[evB, evA]` at 09:30 —
current is `evA`, and the next reported is exactly the candidate accumulated
over the preceding prefix `[evB]` (namely `evB`, so not null, and indeed a
preceding event qualified as a candidate). -/
theorem c2_amended_witness :
    (select utcDay "2.05" 34200000 [evB, evA]).1 = some evA ∧
      (select utcDay "2.05" 34200000 [evB, evA]).2 =
        ([evB].foldl (stepNext utcDay "2.05" 34200000) none).map Prod.fst ∧
      ((select utcDay "2.05" 34200000 [evB, evA]).2 = none ↔
        ∀ x ∈ [evB], candStart utcDay "2.05" 34200000 x = none) :=
  c2_amended_retained_prefix_candidate utcDay "2.05" 34200000 [evB] [] evA
    (by decide) (by decide)

/-- C3: when no event is current for the room but at least one eligible event
today has `startTime > now`, the selector returns as next the candidate with
the minimal start time, and for exactly equal start times the first
encountered in iteration order wins. -/
theorem c3_next_earliest_first_wins (dateOf : Int → Int × Int × Int)
    (room : String) (nowMs : Int) (events : List Event)
    (hnc : ∀ e ∈ events, currentEligible dateOf room nowMs e = false)
    (hex : ∃ e ∈ events, ∃ s en locs, e.startTime = some s ∧
      e.endTime = some en ∧ e.location = some locs ∧ room ∈ locs ∧
      dateOf s = dateOf nowMs ∧ nowMs < s) :
    ∃ n s, (select dateOf room nowMs events).2 = some n ∧ n ∈ events ∧
      n.startTime = some s ∧ candStart dateOf room nowMs n = some s ∧
      (∀ e ∈ events, ∀ s2, candStart dateOf room nowMs e = some s2 → s ≤ s2) ∧
      (events.filter
        (fun e => decide (candStart dateOf room nowMs e = some s))).head?
        = some n := by
  obtain ⟨e, hmem, s0, en0, locs0, hst, hen, hlo, hr, hd, hfut⟩ := hex
  have hcs : candStart dateOf room nowMs e = some s0 := by
    simp [candStart, hst, hen, hlo, hr, hd, hfut]
  have hfold := selectGo_no_current dateOf room nowMs events hnc none
  obtain ⟨q, hq⟩ :=
    foldl_stepNext_exists dateOf room nowMs events none e s0 hmem hcs
  cases q with
  | mk n ns =>
    have hsel2 : (select dateOf room nowMs events).2 = some n := by
      simp [select, hfold, hq]
    have hgo2 : (selectGo dateOf room nowMs events none).2 = some (n, ns) := by
      rw [hfold]
      exact hq
    rcases selectGo_snd_src dateOf room nowMs events none (n, ns) hgo2 with
      habs | ⟨hnmem, hncand⟩
    · exact absurd habs (by simp)
    · obtain ⟨en2, locs2, hst2, _, _, _, _, _⟩ :=
        candStart_spec _ _ _ _ _ hncand
      refine ⟨n, ns, hsel2, hnmem, hst2, hncand, ?_, ?_⟩
      · exact fun e2 hm2 s2 hc2 =>
          foldl_stepNext_min dateOf room nowMs events none n ns hq e2 hm2 s2 hc2
      · exact foldl_stepNext_first dateOf room nowMs events n ns hq

/-- C3 witness: Scenario B — events 09:00–10:00 and 11:00–12:00 for room
"2.05", request at 10:30: no current event and next is the 11:00 event. -/
theorem c3_witness :
    ∃ n s, (select utcDay "2.05" 37800000 [evA, evB]).2 = some n ∧
      n ∈ [evA, evB] ∧ n.startTime = some s ∧
      candStart utcDay "2.05" 37800000 n = some s ∧
      (∀ e ∈ [evA, evB], ∀ s2,
        candStart utcDay "2.05" 37800000 e = some s2 → s ≤ s2) ∧
      ([evA, evB].filter
        (fun e => decide (candStart utcDay "2.05" 37800000 e = some s))).head?
        = some n :=
  c3_next_earliest_first_wins utcDay "2.05" 37800000 [evA, evB] (by decide)
    ⟨evB, by decide, 39600000, 43200000, ["2.05"], rfl, rfl, rfl,
      by decide, by decide, by decide⟩

/-- C4: if no event today matches the requested room at all, the selector
returns null for both current and next, and the response's
`nextEventMessage` is exactly "No upcoming events for this room". -/
theorem c4_no_match_response (isoOf : Int → String)
    (dateOf : Int → Int × Int × Int) (room : String) (nowMs : Int)
    (events : List Event)
    (h : ∀ e ∈ events, eventMatches dateOf room nowMs e = false) :
    select dateOf room nowMs events = (none, none) ∧
      respond isoOf dateOf room nowMs events =
        Response.ok room none none
          (some "No upcoming events for this room") := by
  have hnc : ∀ e ∈ events, currentEligible dateOf room nowMs e = false := by
    intro e he2
    rcases hc : currentEligible dateOf room nowMs e with _ | _
    · rfl
    · obtain ⟨s, en, locs, hs, hen, hl, hr, hd, _, _⟩ :=
        currentEligible_spec _ _ _ _ hc
      have hm : eventMatches dateOf room nowMs e = true := by
        simp [eventMatches, hs, hen, hl, hr, hd]
      rw [h e he2] at hm
      cases hm
  have hcs : ∀ e ∈ events, candStart dateOf room nowMs e = none := by
    intro e he2
    rcases hc : candStart dateOf room nowMs e with _ | s
    · rfl
    · obtain ⟨en, locs, hs, hen, hl, hr, hd, _⟩ := candStart_spec _ _ _ _ _ hc
      have hm : eventMatches dateOf room nowMs e = true := by
        simp [eventMatches, hs, hen, hl, hr, hd]
      rw [h e he2] at hm
      cases hm
  have hsel : select dateOf room nowMs events = (none, none) := by
    simp [select, selectGo_no_current dateOf room nowMs events hnc none,
      foldl_stepNext_const dateOf room nowMs events hcs none]
  exact ⟨hsel, by simp [respond, hsel, nextEventMessage]⟩

/-- C4 witness: Scenario C — a room with zero events in the store. -/
theorem c4_witness :
    select utcDay "9.99" 34200000 [evA] = (none, none) ∧
      respond isoStub utcDay "9.99" 34200000 [evA] =
        Response.ok "9.99" none none
          (some "No upcoming events for this room") :=
  c4_no_match_response isoStub utcDay "9.99" 34200000 [evA] (by decide)

/-- C5: an event whose start does not fall on the same calendar date as `now`
is never returned as current or as next — equivalently, any event the
selector returns starts on today's date. -/
theorem c5_same_day_only (dateOf : Int → Int × Int × Int) (room : String)
    (nowMs : Int) (events : List Event) (e : Event)
    (h : (select dateOf room nowMs events).1 = some e ∨
      (select dateOf room nowMs events).2 = some e) :
    ∃ s, e.startTime = some s ∧ dateOf s = dateOf nowMs := by
  rcases h with h1 | h2
  · have hfind : events.find? (currentEligible dateOf room nowMs) = some e := by
      rw [← selectGo_fst_eq_find dateOf room nowMs events none]
      exact h1
    have helig := List.find?_some hfind
    obtain ⟨s, en, locs, hs, _, _, _, hd, _, _⟩ :=
      currentEligible_spec _ _ _ _ helig
    exact ⟨s, hs, hd⟩
  · have h2m : ((selectGo dateOf room nowMs events none).2.map Prod.fst)
        = some e := h2
    rcases hq : (selectGo dateOf room nowMs events none).2 with _ | p
    · rw [hq] at h2m
      cases h2m
    · rw [hq] at h2m
      simp only [Option.map_some'] at h2m
      rcases selectGo_snd_src dateOf room nowMs events none p hq with
        habs | ⟨_, hcand⟩
      · exact absurd habs (by simp)
      · obtain ⟨en, locs, hst, _, _, _, hd, _⟩ := candStart_spec _ _ _ _ _ hcand
        have hpe : p.1 = e := by injection h2m
        rw [hpe] at hst
        exact ⟨p.2, hst, hd⟩

/-- C5 witness: the selector's current result at Scenario A starts on the
same day as the request instant. -/
theorem c5_witness :
    ∃ s, evA.startTime = some s ∧ utcDay s = utcDay 34200000 :=
  c5_same_day_only utcDay "2.05" 34200000 [evA] evA (Or.inl (by decide))

/-- C6: an event missing `startTime`, `endTime`, or a non-empty `location`
is skipped by the selection, which completes normally over the remaining
events: the selector and the assembled response are the same as if the
malformed event were absent, so a malformed event never fails the request. -/
theorem c6_malformed_skipped (isoOf : Int → String)
    (dateOf : Int → Int × Int × Int) (room : String) (nowMs : Int)
    (l1 l2 : List Event) (e : Event)
    (h : e.startTime = none ∨ e.endTime = none ∨ e.location.getD [] = []) :
    select dateOf room nowMs (l1 ++ e :: l2)
        = select dateOf room nowMs (l1 ++ l2) ∧
      respond isoOf dateOf room nowMs (l1 ++ e :: l2)
        = respond isoOf dateOf room nowMs (l1 ++ l2) := by
  have helig : currentEligible dateOf room nowMs e = false := by
    rcases hc : currentEligible dateOf room nowMs e with _ | _
    · rfl
    · obtain ⟨s, en, locs, hs, hen, hl, hr, _, _, _⟩ :=
        currentEligible_spec _ _ _ _ hc
      rcases h with h1 | h2 | h3
      · rw [h1] at hs; cases hs
      · rw [h2] at hen; cases hen
      · rw [hl] at h3
        simp only [Option.getD_some] at h3
        subst h3
        cases hr
  have hcand : candStart dateOf room nowMs e = none := by
    rcases hc : candStart dateOf room nowMs e with _ | s
    · rfl
    · obtain ⟨en, locs, hs, hen, hl, hr, _, _⟩ := candStart_spec _ _ _ _ _ hc
      rcases h with h1 | h2 | h3
      · rw [h1] at hs; cases hs
      · rw [h2] at hen; cases hen
      · rw [hl] at h3
        simp only [Option.getD_some] at h3
        subst h3
        cases hr
  have key : ∀ m acc, selectGo dateOf room nowMs (m ++ e :: l2) acc
      = selectGo dateOf room nowMs (m ++ l2) acc := by
    intro m
    induction m with
    | nil =>
      intro acc
      rw [List.nil_append, List.nil_append, selectGo_cons,
        if_neg (by simp [helig]), stepNext_none _ _ _ _ _ hcand]
    | cons x rest ih =>
      intro acc
      rw [List.cons_append, List.cons_append, selectGo_cons, selectGo_cons]
      by_cases hx : currentEligible dateOf room nowMs x = true
      · rw [if_pos hx, if_pos hx]
      · rw [if_neg (by simp [hx]), if_neg (by simp [hx])]
        exact ih _
  have hsel : select dateOf room nowMs (l1 ++ e :: l2)
      = select dateOf room nowMs (l1 ++ l2) := by
    simp only [select, key l1]
  exact ⟨hsel, by simp only [respond, hsel]⟩

/-- C6 witness: an event with no `startTime` appended after Scenario A's
event changes neither the selection nor the response. -/
theorem c6_witness :
    select utcDay "2.05" 34200000 [evA, evBad]
        = select utcDay "2.05" 34200000 [evA] ∧
      respond isoStub utcDay "2.05" 34200000 [evA, evBad]
        = respond isoStub utcDay "2.05" 34200000 [evA] :=
  c6_malformed_skipped isoStub utcDay "2.05" 34200000 [evA] [] evBad
    (Or.inl rfl)

/-- C7: when the store file does not exist, the request is answered with the
500 "Structured events data not found" error (the process keeps serving),
and once the file appears, the very next request reloads it and is served
the normal selector-based response. -/
theorem c7_store_unavailable_then_recover (isoOf : Int → String)
    (dateOf : Int → Int × Int × Int) (st : CacheState) (room : String)
    (nowMs : Int) (m : Int) (evs : List Event) (room2 : String)
    (nowMs2 : Int) :
    handleData isoOf dateOf none st room nowMs =
      ({ eventsCache := none, cacheTimestamp := none },
        Response.error 500 "Structured events data not found") ∧
      handleData isoOf dateOf (some { mtime := m, content := some evs })
          { eventsCache := none, cacheTimestamp := none } room2 nowMs2 =
        ({ eventsCache := some evs, cacheTimestamp := some m },
          respond isoOf dateOf room2 nowMs2 evs) ∧
      ∃ c n msg, respond isoOf dateOf room2 nowMs2 evs =
        Response.ok room2 c n msg := by
  refine ⟨rfl, ?_, ?_⟩
  · simp [handleData, loadEventsCache, jsTruthyNum]
  · exact ⟨_, _, _, rfl⟩

/-- C8: after `invalidate()` (the ingestion job setting the recorded cache
timestamp to null), the very next `loadEventsCache` call re-reads and
re-parses the store file unconditionally — even when the file's modification
timestamp is unchanged, and even though a snapshot is still cached: a
parseable file replaces the snapshot and records the mtime, and an
unparseable one raises the parse error (proving a parse really happened). -/
theorem c8_invalidate_reloads (st : CacheState) (m : Int)
    (evs : List Event) :
    loadEventsCache (some { mtime := m, content := some evs })
        (invalidate st) =
      ({ eventsCache := some evs, cacheTimestamp := some m },
        Except.ok (some evs)) ∧
      loadEventsCache (some { mtime := m, content := none })
          (invalidate st) =
        (invalidate st, Except.error ()) := by
  constructor <;> simp [loadEventsCache, invalidate, jsTruthyNum]

/-- C9: whenever the store file exists but its contents fail to parse (the
`JSON.parse` throw, `StoreCorrupt`), the cache state is not updated at all —
neither snapshot nor timestamp — and the request is answered with the 500
"Internal server error" response. -/
theorem c9_corrupt_preserves_state (isoOf : Int → String)
    (dateOf : Int → Int × Int × Int) (fsys : Option StoredFile)
    (st : CacheState) (room : String) (nowMs : Int)
    (h : (loadEventsCache fsys st).2 = Except.error ()) :
    (loadEventsCache fsys st).1 = st ∧
      handleData isoOf dateOf fsys st room nowMs =
        (st, Response.error 500 "Internal server error") := by
  cases fsys with
  | none => simp [loadEventsCache] at h
  | some f =>
    rcases hcontent : f.content with _ | evs
    · simp only [loadEventsCache, hcontent] at h
      split at h
      · rename_i hP
        have hload : loadEventsCache (some f) st = (st, Except.error ()) := by
          simp only [loadEventsCache, hcontent]
          rw [if_pos hP]
        exact ⟨by rw [hload], by simp [handleData, hload]⟩
      · exact absurd h (by simp)
    · simp only [loadEventsCache, hcontent] at h
      split at h
      · exact absurd h (by simp)
      · exact absurd h (by simp)

/-- C9 witness: a corrupt store file with an empty cache — state preserved
and 500 "Internal server error" returned. -/
theorem c9_witness :
    (loadEventsCache (some { mtime := 0, content := none })
      { eventsCache := none, cacheTimestamp := none }).1 =
      { eventsCache := none, cacheTimestamp := none } ∧
    handleData isoStub utcDay (some { mtime := 0, content := none })
        { eventsCache := none, cacheTimestamp := none } "2.05" 34200000 =
      ({ eventsCache := none, cacheTimestamp := none },
        Response.error 500 "Internal server error") :=
  c9_corrupt_preserves_state isoStub utcDay
    (some { mtime := 0, content := none })
    { eventsCache := none, cacheTimestamp := none } "2.05" 34200000 rfl

/-- C10: when the store file is absent, `loadEventsCache` resets both the
in-memory snapshot and the recorded timestamp to null before returning (any
previously loaded snapshot is discarded, for every prior state), and the
first load after the file reappears always performs a full reload, whatever
the file's mtime: a parseable file is parsed and cached, an unparseable one
raises the parse error. -/
theorem c10_missing_resets_cache (st : CacheState) (m : Int)
    (evs : List Event) :
    loadEventsCache none st =
      ({ eventsCache := none, cacheTimestamp := none }, Except.ok none) ∧
      loadEventsCache (some { mtime := m, content := some evs })
          { eventsCache := none, cacheTimestamp := none } =
        ({ eventsCache := some evs, cacheTimestamp := some m },
          Except.ok (some evs)) ∧
      loadEventsCache (some { mtime := m, content := none })
          { eventsCache := none, cacheTimestamp := none } =
        ({ eventsCache := none, cacheTimestamp := none },
          Except.error ()) := by
  refine ⟨rfl, ?_, ?_⟩ <;> simp [loadEventsCache, jsTruthyNum]

end EInk
